import Mathlib

/-!
Verification of the balance-polling and balance-formatting core of
src/src/components/SignedInScreen.tsx.

Part 1 embeds the decimal formatters:
  formatSol   (source lines 128-132)  : lamports to a SOL decimal string,
  formatEther (viem library function) : wei to an ETH decimal string.
Strings are modelled as lists of characters.  The JavaScript number
arithmetic inside formatSol is modelled with faithful IEEE-754 binary64
semantics over integer mantissa-exponent pairs: conversion of the integer
argument to the nearest double (round half to even), correctly rounded
double division by 1e9, and the ECMA-262 toFixed(9) rounding (nearest,
ties away from zero for the positive values at hand), in the fixed-notation
regime of toFixed (finite doubles below 10^21, which covers every balance
a chain can represent).

Part 2 embeds the two polling hooks (useEvmBalance, useSolanaBalance) as a
discrete-time simulation recording every network call, every escaped
rejection and every logged error.
-/

namespace CdpWalls

/-- Numeric value of a digit character: its code point minus 48. -/
def charVal (c : Char) : Nat := c.toNat - 48

/-- Value of a big-endian list of digit characters, as in decimal parsing. -/
def digitsVal (l : List Char) : Nat := l.foldl (fun a c => 10 * a + charVal c) 0

/-- Fuel-driven rendering of a positive natural number as big-endian decimal
digit characters (rendering of 0 is handled by natStr). -/
def natStrAux : Nat → Nat → List Char
  | 0, _ => []
  | fuel + 1, n =>
    if n = 0 then [] else natStrAux fuel (n / 10) ++ [Nat.digitChar (n % 10)]

/-- Decimal rendering of a natural number, as JavaScript toString would
produce for a non-negative integer. -/
def natStr (n : Nat) : List Char := if n = 0 then ['0'] else natStrAux n n

/-- Left-pad a character list with the digit 0 up to length k, as a
fractional field of a fixed-point decimal is padded. -/
def padLeft (k : Nat) (l : List Char) : List Char :=
  List.replicate (k - l.length) '0' ++ l

/-- Model of the regex replace of one or more trailing 0 characters by the
empty string, as on source line 131. -/
def stripTrailingZeros (l : List Char) : List Char :=
  (l.reverse.dropWhile (fun c => c == '0')).reverse

/-- Model of the regex replace of a trailing dot by the empty string, as on
source line 131. -/
def stripTrailingDot (l : List Char) : List Char :=
  if l.getLast? = some '.' then l.dropLast else l

/-- Constant from solana/web3.js: lamports per SOL. -/
def LAMPORTS_PER_SOL : Nat := 1000000000

/-- Fuel-driven floor of the base-2 logarithm of a natural number (0 for 0). -/
def log2Aux : Nat → Nat → Nat
  | 0, _ => 0
  | fuel + 1, n => if n < 2 then 0 else log2Aux fuel (n / 2) + 1

/-- Floor of the base-2 logarithm of a natural number (0 for 0). -/
def natLog2 (n : Nat) : Nat := log2Aux n n

/-- Round the rational N / D to the nearest integer, ties to even: the
rounding used when an IEEE-754 operation fits a result into 53 mantissa
bits. -/
def rhe (N D : Nat) : Nat :=
  if 2 * (N % D) < D then N / D
  else if 2 * (N % D) > D then N / D + 1
  else if N / D % 2 = 0 then N / D else N / D + 1

/-- Nearest binary64 double to a natural number, as a mantissa-exponent
pair with value m * 2 ^ e: the JavaScript number holding the lamport
argument of formatSol (a call with an integer literal, or the conversion
on source line 96, both round to the nearest double).  Faithful below the
binary64 overflow threshold, far beyond any chain balance. -/
def flNatPair (n : Nat) : Nat × Nat :=
  if natLog2 n ≤ 52 then (n, 0)
  else (rhe n (2 ^ (natLog2 n - 52)), natLog2 n - 52)

/-- Floor of the base-2 logarithm of N / LAMPORTS_PER_SOL, biased by 64:
natLog2 of N * 2 ^ 64 / LAMPORTS_PER_SOL (the shift keeps the quotient at
least 1 for every positive N, making the floor-log identity exact). -/
def binLog9 (N : Nat) : Nat := natLog2 (N * 2 ^ 64 / LAMPORTS_PER_SOL)

/-- Correctly rounded binary64 division of the double m * 2 ^ e by
LAMPORTS_PER_SOL, as on source line 130: the result is encoded as a
mantissa m2 with biased exponent g, denoting m2 * 2 ^ (g - 116); the
mantissa is the quotient rounded to even at the granularity of the
result's binade. -/
def flDivPow9 (m e : Nat) : Nat × Nat :=
  if m = 0 then (0, 116)
  else if 116 ≤ binLog9 (m * 2 ^ e) then
    (rhe (m * 2 ^ e) (LAMPORTS_PER_SOL * 2 ^ (binLog9 (m * 2 ^ e) - 116)),
      binLog9 (m * 2 ^ e))
  else
    (rhe (m * 2 ^ e * 2 ^ (116 - binLog9 (m * 2 ^ e))) LAMPORTS_PER_SOL,
      binLog9 (m * 2 ^ e))

/-- ECMA-262 toFixed(9) applied to the double m2 * 2 ^ (g - 116): the
integer n closest to the value times 10 ^ 9, larger n on ties, so that the
digit string reads n with a decimal point inserted 9 digits from the
right.  Faithful in the fixed-notation regime of toFixed (values below
10 ^ 21). -/
def toFixed9Num (m2 g : Nat) : Nat :=
  if 116 ≤ g then m2 * LAMPORTS_PER_SOL * 2 ^ (g - 116)
  else (2 * m2 * LAMPORTS_PER_SOL + 2 ^ (116 - g)) / (2 ^ (116 - g) * 2)

/-- Source lines 130-131, string part: render the toFixed integer n as the
9-decimal fixed string, then strip trailing zeros and a trailing bare
decimal point with the two regex replaces. -/
def toFixedStrip (n : Nat) : List Char :=
  stripTrailingDot (stripTrailingZeros
    (natStr (n / 10 ^ 9) ++ '.' :: padLeft 9 (natStr (n % 10 ^ 9))))

/-- Source lines 128-132: formatSol converts its lamport argument to a
double, divides by LAMPORTS_PER_SOL in double arithmetic, renders the
quotient with toFixed(9), then strips trailing zeros and a trailing bare
decimal point. -/
def formatSolChars (lamports : Nat) : List Char :=
  toFixedStrip
    (toFixed9Num (flDivPow9 (flNatPair lamports).1 (flNatPair lamports).2).1
      (flDivPow9 (flNatPair lamports).1 (flNatPair lamports).2).2)

/-- Source lines 128-132: formatSol as a string. -/
def formatSol (lamports : Nat) : String := ⟨formatSolChars lamports⟩

/-- Fixed-point rendering of value divided by 10 to the decimals power:
integer part, then, when the remainder is nonzero, a dot and the padded
fractional digits with trailing zeros removed. -/
def formatUnitsChars (value decimals : Nat) : List Char :=
  let i := value / 10 ^ decimals
  let f := value % 10 ^ decimals
  if f = 0 then natStr i
  else natStr i ++ '.' :: stripTrailingZeros (padLeft decimals (natStr f))

/-- Modelled from the spec: the viem library function formatEther, used on
source line 69, is not part of this repository; the spec describes it as
the standard fixed-point conversion with 18 decimal places, trailing zeros
trimmed. -/
def formatEther (b : Nat) : String := ⟨formatUnitsChars b 18⟩

/-- The non-EVM formatter as the claim describes it: the decimal string
denoting lamports over 10 to the 9th, trailing zeros and a trailing bare
decimal point removed. -/
def formatSolSpec (lamports : Nat) : String := ⟨formatUnitsChars lamports 9⟩

/-- Denotation of a decimal character string as a rational number: the
digits before the first dot as the integer part, the digits after it as
the fractional part. -/
def decDenote (l : List Char) : ℚ :=
  match l.dropWhile (fun c => c != '.') with
  | [] => digitsVal l
  | _ :: frac =>
      digitsVal (l.takeWhile (fun c => c != '.')) +
        (digitsVal frac : ℚ) / 10 ^ frac.length

/-- Number of fractional digits of a decimal character string: the length
of the part after the first dot, zero when there is no dot. -/
def fracLen (l : List Char) : Nat :=
  match l.dropWhile (fun c => c != '.') with
  | [] => 0
  | _ :: frac => frac.length

example : formatSol 1500000000 = "1.5" := by decide
example : formatSol 1000000000 = "1" := by decide
example : formatSol 0 = "0" := by decide
example : formatSol 5 = "0.000000005" := by decide
example : formatSol 10000000000 = "10" := by decide
example : formatEther 1000000000000000000 = "1" := by decide
example : formatEther 1500000000000000000 = "1.5" := by decide
/-! Helper lemmas about digit rendering and parsing. -/

theorem charVal_digitChar (d : Nat) (h : d < 10) : charVal (Nat.digitChar d) = d := by
  interval_cases d <;> decide

theorem digitChar_ne_dot (d : Nat) (h : d < 10) : Nat.digitChar d ≠ '.' := by
  interval_cases d <;> decide

theorem digitsVal_append (l : List Char) (c : Char) :
    digitsVal (l ++ [c]) = 10 * digitsVal l + charVal c := by
  simp [digitsVal, List.foldl_append]

theorem digitsVal_natStrAux (fuel : Nat) :
    ∀ n, n ≤ fuel → digitsVal (natStrAux fuel n) = n := by
  induction fuel with
  | zero =>
    intro n h
    interval_cases n
    rfl
  | succ fuel ih =>
    intro n h
    by_cases h0 : n = 0
    · subst h0; rfl
    · have hdiv : n / 10 ≤ fuel := by
        have := Nat.div_lt_self (Nat.pos_of_ne_zero h0) (by norm_num : 1 < 10)
        omega
      rw [natStrAux, if_neg h0, digitsVal_append, ih (n / 10) hdiv,
        charVal_digitChar _ (Nat.mod_lt n (by norm_num))]
      omega

theorem digitsVal_natStr (n : Nat) : digitsVal (natStr n) = n := by
  by_cases h : n = 0
  · subst h; rfl
  · rw [natStr, if_neg h]
    exact digitsVal_natStrAux n n le_rfl

theorem mem_natStrAux {c : Char} (fuel : Nat) :
    ∀ n, c ∈ natStrAux fuel n → ∃ d, d < 10 ∧ c = Nat.digitChar d := by
  induction fuel with
  | zero => intro n hc; simp [natStrAux] at hc
  | succ fuel ih =>
    intro n hc
    by_cases h0 : n = 0
    · rw [natStrAux, if_pos h0] at hc; simp at hc
    · rw [natStrAux, if_neg h0, List.mem_append] at hc
      rcases hc with hc | hc
      · exact ih _ hc
      · refine ⟨n % 10, Nat.mod_lt n (by norm_num), ?_⟩
        simpa using hc

theorem mem_natStr_ne_dot {c : Char} {n : Nat} (hc : c ∈ natStr n) : c ≠ '.' := by
  rw [natStr] at hc
  split at hc
  · simp at hc; subst hc; decide
  · obtain ⟨d, hd, rfl⟩ := mem_natStrAux n n hc
    exact digitChar_ne_dot d hd

theorem length_natStrAux (fuel : Nat) :
    ∀ n d, n ≤ fuel → n < 10 ^ d → (natStrAux fuel n).length ≤ d := by
  induction fuel with
  | zero =>
    intro n d h _
    interval_cases n
    simp [natStrAux]
  | succ fuel ih =>
    intro n d h hd
    by_cases h0 : n = 0
    · subst h0; simp [natStrAux]
    · rw [natStrAux, if_neg h0]
      have hdne : d ≠ 0 := by
        intro h'
        subst h'
        simp at hd
        omega
      have hdiv : n / 10 ≤ fuel := by
        have := Nat.div_lt_self (Nat.pos_of_ne_zero h0) (by norm_num : 1 < 10)
        omega
      have hlt : n / 10 < 10 ^ (d - 1) := by
        rw [Nat.div_lt_iff_lt_mul (by norm_num : (0:Nat) < 10)]
        calc n < 10 ^ d := hd
          _ = 10 ^ (d - 1) * 10 := by
            rw [← pow_succ]
            congr 1
            omega
      have := ih (n / 10) (d - 1) hdiv hlt
      simp only [List.length_append, List.length_singleton]
      omega

theorem length_natStr_le {n d : Nat} (h : n < 10 ^ d) (hd : 1 ≤ d) :
    (natStr n).length ≤ d := by
  rw [natStr]
  split
  · simpa using hd
  · exact length_natStrAux n n d le_rfl h

theorem foldl_digits_all_zero (l : List Char) (h : ∀ c ∈ l, c = '0') :
    ∀ a : Nat, l.foldl (fun a c => 10 * a + charVal c) a = a * 10 ^ l.length := by
  induction l with
  | nil => intro a; simp
  | cons c l ih =>
    intro a
    have hc : c = '0' := h c (List.mem_cons_self _ _)
    subst hc
    simp only [List.foldl_cons]
    rw [ih (fun c hc => h c (List.mem_cons_of_mem _ hc))]
    have : charVal '0' = 0 := rfl
    rw [this, List.length_cons, pow_succ]
    ring

theorem digitsVal_replicate_zero_append (m : Nat) (l : List Char) :
    digitsVal (List.replicate m '0' ++ l) = digitsVal l := by
  induction m with
  | zero => rfl
  | succ m ih =>
    rw [List.replicate_succ, List.cons_append]
    show digitsVal ('0' :: (List.replicate m '0' ++ l)) = digitsVal l
    rw [← ih]
    rfl

theorem digitsVal_padLeft (k : Nat) (l : List Char) :
    digitsVal (padLeft k l) = digitsVal l :=
  digitsVal_replicate_zero_append _ _

theorem digitsVal_append_zeros (l : List Char) (k : Nat) :
    digitsVal (l ++ List.replicate k '0') = digitsVal l * 10 ^ k := by
  induction k with
  | zero => simp
  | succ k ih =>
    rw [List.replicate_succ', ← List.append_assoc, digitsVal_append, ih]
    have : charVal '0' = 0 := rfl
    rw [this, pow_succ]
    ring

/-! Helper lemmas about the two trailing-strip regex models. -/

theorem dropWhile_append_all {p : Char → Bool} {xs ys : List Char}
    (h : ∀ x ∈ xs, p x = true) :
    List.dropWhile p (xs ++ ys) = List.dropWhile p ys := by
  induction xs with
  | nil => rfl
  | cons x xs ih =>
    rw [List.cons_append, List.dropWhile_cons, if_pos (h x (List.mem_cons_self _ _))]
    exact ih fun x hx => h x (List.mem_cons_of_mem _ hx)

theorem dropWhile_append_ne_nil {p : Char → Bool} {xs : List Char} (ys : List Char)
    (h : List.dropWhile p xs ≠ []) :
    List.dropWhile p (xs ++ ys) = List.dropWhile p xs ++ ys := by
  induction xs with
  | nil => simp at h
  | cons x xs ih =>
    by_cases hp : p x = true
    · rw [List.dropWhile_cons, if_pos hp] at h
      rw [List.cons_append, List.dropWhile_cons, if_pos hp, List.dropWhile_cons, if_pos hp]
      exact ih h
    · rw [List.cons_append, List.dropWhile_cons, if_neg hp, List.dropWhile_cons, if_neg hp,
        List.cons_append]

theorem takeWhile_append_all {p : Char → Bool} {xs ys : List Char}
    (h : ∀ x ∈ xs, p x = true) :
    List.takeWhile p (xs ++ ys) = xs ++ List.takeWhile p ys := by
  induction xs with
  | nil => rfl
  | cons x xs ih =>
    rw [List.cons_append, List.takeWhile_cons, if_pos (h x (List.mem_cons_self _ _)),
      List.cons_append, ih fun x hx => h x (List.mem_cons_of_mem _ hx)]

theorem strip_decomp (l : List Char) :
    ∃ k, l = stripTrailingZeros l ++ List.replicate k '0' := by
  refine ⟨(l.reverse.takeWhile (fun c => c == '0')).length, ?_⟩
  have h1 : l.reverse.takeWhile (fun c => c == '0') =
      List.replicate (l.reverse.takeWhile (fun c => c == '0')).length '0' := by
    apply List.eq_replicate_length.mpr
    intro b hb
    have := List.mem_takeWhile_imp hb
    simpa using this
  calc l = l.reverse.reverse := (List.reverse_reverse l).symm
    _ = (l.reverse.takeWhile (fun c => c == '0') ++
          l.reverse.dropWhile (fun c => c == '0')).reverse := by
        rw [List.takeWhile_append_dropWhile]
    _ = (l.reverse.dropWhile (fun c => c == '0')).reverse ++
          (l.reverse.takeWhile (fun c => c == '0')).reverse := by
        rw [List.reverse_append]
    _ = stripTrailingZeros l ++
          (List.replicate (l.reverse.takeWhile (fun c => c == '0')).length '0').reverse := by
        rw [← h1]; rfl
    _ = _ := by rw [List.reverse_replicate]

theorem stripTrailingZeros_length_le (l : List Char) :
    (stripTrailingZeros l).length ≤ l.length := by
  obtain ⟨k, hk⟩ := strip_decomp l
  conv_rhs => rw [hk]
  simp

theorem mem_stripTrailingZeros {c : Char} {l : List Char}
    (hc : c ∈ stripTrailingZeros l) : c ∈ l := by
  obtain ⟨k, hk⟩ := strip_decomp l
  rw [hk, List.mem_append]
  exact Or.inl hc

theorem stripTrailingZeros_ne_nil {l : List Char} (h : digitsVal l ≠ 0) :
    stripTrailingZeros l ≠ [] := by
  intro hnil
  apply h
  obtain ⟨k, hk⟩ := strip_decomp l
  rw [hk, hnil, List.nil_append]
  have : digitsVal (List.replicate k '0') = 0 := by
    have := foldl_digits_all_zero (List.replicate k '0')
      (fun c hc => List.eq_of_mem_replicate hc) 0
    simpa [digitsVal] using this
  exact this

/-- Stripping trailing zeros then a trailing dot from an integer part, a dot
and an all-zero fractional field leaves the integer part alone. -/
theorem strip_int_dot_zeros (a : List Char) (k : Nat) :
    stripTrailingDot (stripTrailingZeros (a ++ '.' :: List.replicate k '0')) = a := by
  have h1 : stripTrailingZeros (a ++ '.' :: List.replicate k '0') = a ++ ['.'] := by
    unfold stripTrailingZeros
    rw [List.reverse_append, List.reverse_cons, List.reverse_replicate, List.append_assoc,
      List.singleton_append,
      dropWhile_append_all (fun x hx => by simpa using List.eq_of_mem_replicate hx),
      List.dropWhile_cons]
    rw [if_neg (by decide)]
    simp
  rw [h1, stripTrailingDot, if_pos (by rw [List.getLast?_concat]), List.dropLast_concat]

/-- Stripping trailing zeros then a trailing dot from an integer part, a dot
and a fractional field that is not all zeros strips only inside the
fractional field. -/
theorem strip_int_dot_frac (a b : List Char) (hb : stripTrailingZeros b ≠ [])
    (hbchars : ∀ c ∈ b, c ≠ '.') :
    stripTrailingDot (stripTrailingZeros (a ++ '.' :: b)) =
      a ++ '.' :: stripTrailingZeros b := by
  have hdws : List.dropWhile (fun c => c == '0') b.reverse ≠ [] := by
    intro hnil
    apply hb
    unfold stripTrailingZeros
    rw [hnil]
    rfl
  have h1 : stripTrailingZeros (a ++ '.' :: b) = a ++ '.' :: stripTrailingZeros b := by
    unfold stripTrailingZeros
    rw [List.reverse_append, List.reverse_cons, List.append_assoc, List.singleton_append,
      dropWhile_append_ne_nil _ hdws, List.reverse_append, List.reverse_cons,
      List.reverse_reverse, List.append_assoc, List.singleton_append]
  rw [h1, stripTrailingDot]
  have hlast : (a ++ '.' :: stripTrailingZeros b).getLast? ≠ some '.' := by
    rw [List.getLast?_append_of_ne_nil _ (by simp)]
    cases hs : stripTrailingZeros b with
    | nil => exact absurd hs hb
    | cons c s' =>
      rw [List.getLast?_cons_cons]
      intro hg
      obtain ⟨hne, heq⟩ :=
        List.mem_getLast?_eq_getLast (Option.mem_def.mpr hg)
      have hmem : '.' ∈ c :: s' := heq ▸ List.getLast_mem hne
      have : ('.' : Char) ∈ b := mem_stripTrailingZeros (hs ▸ hmem)
      exact hbchars '.' this rfl
  rw [if_neg hlast]

/-! Correctness of the formatters. -/

theorem mem_padLeft_natStr_ne_dot {c : Char} {k n : Nat}
    (hc : c ∈ padLeft k (natStr n)) : c ≠ '.' := by
  rw [padLeft, List.mem_append] at hc
  rcases hc with hc | hc
  · have := List.eq_of_mem_replicate hc
    subst this
    decide
  · exact mem_natStr_ne_dot hc

theorem digitsVal_padLeft_natStr (k n : Nat) :
    digitsVal (padLeft k (natStr n)) = n := by
  rw [padLeft, digitsVal_replicate_zero_append, digitsVal_natStr]

/-- The toFixed digit string of n followed by the regex pipeline computes
exactly the fixed-point conversion of n with 9 decimals. -/
theorem toFixedStrip_eq_formatUnits (L : Nat) :
    toFixedStrip L = formatUnitsChars L 9 := by
  rw [toFixedStrip, formatUnitsChars]
  by_cases hf0 : L % 10 ^ 9 = 0
  · rw [if_pos hf0, hf0]
    have hpad : padLeft 9 (natStr 0) = List.replicate 9 '0' := by decide
    rw [hpad, strip_int_dot_zeros]
  · rw [if_neg hf0]
    apply strip_int_dot_frac
    · apply stripTrailingZeros_ne_nil
      rw [digitsVal_padLeft_natStr]
      exact hf0
    · intro c hc
      exact mem_padLeft_natStr_ne_dot hc

theorem decDenote_no_dot (l : List Char) (h : ∀ c ∈ l, c ≠ '.') :
    decDenote l = digitsVal l := by
  have hdw : List.dropWhile (fun c => c != '.') l = [] := by
    apply List.dropWhile_eq_nil_iff.mpr
    intro x hx
    simpa using h x hx
  rw [decDenote, hdw]

theorem decDenote_dot (a b : List Char) (ha : ∀ c ∈ a, c ≠ '.') :
    decDenote (a ++ '.' :: b) = digitsVal a + (digitsVal b : ℚ) / 10 ^ b.length := by
  have hdw : List.dropWhile (fun c => c != '.') (a ++ '.' :: b) = '.' :: b := by
    rw [dropWhile_append_all (fun x hx => by simpa using ha x hx),
      List.dropWhile_cons, if_neg (by decide)]
  have htw : List.takeWhile (fun c => c != '.') (a ++ '.' :: b) = a := by
    rw [takeWhile_append_all (fun x hx => by simpa using ha x hx),
      List.takeWhile_cons, if_neg (by decide), List.append_nil]
  rw [decDenote, hdw, htw]

theorem fracLen_no_dot (l : List Char) (h : ∀ c ∈ l, c ≠ '.') :
    fracLen l = 0 := by
  have hdw : List.dropWhile (fun c => c != '.') l = [] := by
    apply List.dropWhile_eq_nil_iff.mpr
    intro x hx
    simpa using h x hx
  rw [fracLen, hdw]

theorem fracLen_dot (a b : List Char) (ha : ∀ c ∈ a, c ≠ '.') :
    fracLen (a ++ '.' :: b) = b.length := by
  have hdw : List.dropWhile (fun c => c != '.') (a ++ '.' :: b) = '.' :: b := by
    rw [dropWhile_append_all (fun x hx => by simpa using ha x hx),
      List.dropWhile_cons, if_neg (by decide)]
  rw [fracLen, hdw]

theorem padLeft_natStr_length {f d : Nat} (hf0 : f ≠ 0) (hflt : f < 10 ^ d) :
    (padLeft d (natStr f)).length = d := by
  have hd1 : 1 ≤ d := by
    rcases Nat.eq_zero_or_pos d with h | h
    · subst h
      simp at hflt
      omega
    · exact h
  have := length_natStr_le hflt hd1
  rw [padLeft, List.length_append, List.length_replicate]
  omega

/-- The fixed-point conversion denotes exactly its input scaled down by the
given power of ten. -/
theorem decDenote_formatUnits (v d : Nat) :
    decDenote (formatUnitsChars v d) = (v : ℚ) / 10 ^ d := by
  rw [formatUnitsChars]
  have hvif : v = 10 ^ d * (v / 10 ^ d) + v % 10 ^ d := (Nat.div_add_mod v (10 ^ d)).symm
  by_cases hf0 : v % 10 ^ d = 0
  · rw [if_pos hf0, decDenote_no_dot _ (fun c hc => mem_natStr_ne_dot hc), digitsVal_natStr]
    have hv' : (v : ℚ) = 10 ^ d * ((v / 10 ^ d : Nat) : ℚ) := by
      conv_lhs => rw [hvif]
      rw [hf0]
      push_cast
      ring
    rw [hv']
    field_simp
  · rw [if_neg hf0]
    set b := padLeft d (natStr (v % 10 ^ d)) with hbdef
    obtain ⟨k, hk⟩ := strip_decomp b
    have hflt : v % 10 ^ d < 10 ^ d := Nat.mod_lt _ (pow_pos (by norm_num) d)
    have hblen : b.length = d := padLeft_natStr_length hf0 hflt
    have hdvb : digitsVal b = v % 10 ^ d := digitsVal_padLeft_natStr _ _
    have hsk : digitsVal (stripTrailingZeros b) * 10 ^ k = v % 10 ^ d := by
      rw [← hdvb]
      conv_rhs => rw [hk]
      rw [digitsVal_append_zeros]
    have hslen : (stripTrailingZeros b).length + k = d := by
      have := congrArg List.length hk
      rw [List.length_append, List.length_replicate, hblen] at this
      omega
    rw [decDenote_dot _ _ (fun c hc => mem_natStr_ne_dot hc), digitsVal_natStr]
    have hv' : (v : ℚ) = 10 ^ d * ((v / 10 ^ d : Nat) : ℚ) +
        ((digitsVal (stripTrailingZeros b) : ℚ)) * 10 ^ k := by
      conv_lhs => rw [hvif]
      rw [← hsk]
      push_cast
      ring
    rw [hv', ← hslen, pow_add]
    have h1 : ((10 : ℚ) ^ (stripTrailingZeros b).length) ≠ 0 := by positivity
    have h2 : ((10 : ℚ) ^ k) ≠ 0 := by positivity
    field_simp
    ring

theorem fracLen_formatUnits (v d : Nat) : fracLen (formatUnitsChars v d) ≤ d := by
  rw [formatUnitsChars]
  by_cases hf0 : v % 10 ^ d = 0
  · rw [if_pos hf0, fracLen_no_dot _ (fun c hc => mem_natStr_ne_dot hc)]
    exact Nat.zero_le d
  · rw [if_neg hf0, fracLen_dot _ _ (fun c hc => mem_natStr_ne_dot hc)]
    have hflt : v % 10 ^ d < 10 ^ d := Nat.mod_lt _ (pow_pos (by norm_num) d)
    have := stripTrailingZeros_length_le (padLeft d (natStr (v % 10 ^ d)))
    rw [padLeft_natStr_length hf0 hflt] at this
    exact this

/-! Helper lemmas about the binary64 arithmetic inside formatSol. -/

theorem log2Aux_spec (fuel : Nat) :
    ∀ n, 1 ≤ n → n ≤ fuel → 2 ^ log2Aux fuel n ≤ n ∧ n < 2 ^ (log2Aux fuel n + 1) := by
  induction fuel with
  | zero =>
    intro n h1 h2
    exact absurd (h1.trans h2) (by decide)
  | succ fuel ih =>
    intro n h1 h2
    by_cases hn : n < 2
    · rw [log2Aux, if_pos hn]
      constructor
      · simpa using h1
      · simpa using hn
    · rw [log2Aux, if_neg hn]
      obtain ⟨hl, hu⟩ := ih (n / 2) (by omega) (by omega)
      constructor
      · rw [pow_succ]
        omega
      · rw [pow_succ]
        omega

theorem natLog2_spec {n : Nat} (h : 1 ≤ n) :
    2 ^ natLog2 n ≤ n ∧ n < 2 ^ (natLog2 n + 1) :=
  log2Aux_spec n n h le_rfl

theorem natLog2_lt_of_lt {n k : Nat} (h1 : 1 ≤ n) (h2 : n < 2 ^ k) : natLog2 n < k := by
  have hl := (natLog2_spec h1).1
  by_contra hc
  push_neg at hc
  have : 2 ^ k ≤ 2 ^ natLog2 n := Nat.pow_le_pow_right (by norm_num) hc
  omega

/-- Round-half-even differs from the exact quotient by at most one half:
both one-sided bounds, cleared of denominators. -/
theorem rhe_bounds (N D : Nat) (hD : 0 < D) :
    2 * rhe N D * D ≤ 2 * N + D ∧ 2 * N ≤ 2 * rhe N D * D + D := by
  have hqr : D * (N / D) + N % D = N := Nat.div_add_mod N D
  have hr : N % D < D := Nat.mod_lt N hD
  rw [rhe]
  set q := N / D
  set r := N % D
  have e1 : 2 * q * D = 2 * (D * q) := by ring
  have e2 : 2 * (q + 1) * D = 2 * (D * q) + 2 * D := by ring
  set M := D * q
  split
  · rw [e1]
    omega
  · split
    · rw [e2]
      omega
    · split
      · rw [e1]
        omega
      · rw [e2]
        omega

/-- Integers below 2 to the 53rd are exactly representable doubles. -/
theorem flNatPair_small {n : Nat} (h : n < 2 ^ 53) : flNatPair n = (n, 0) := by
  have hle : natLog2 n ≤ 52 := by
    rcases Nat.eq_zero_or_pos n with h0 | h1
    · subst h0
      decide
    · have := natLog2_lt_of_lt h1 h
      omega
  rw [flNatPair, if_pos hle]

/-- In the range where the half-ulp of the double quotient is below half a
toFixed(9) digit, the whole double pipeline reproduces the lamport count
exactly: the toFixed integer of the double quotient of L by 10^9 is L
itself, for every L below 2^23 * 10^9. -/
theorem toFixed9Num_flDiv_exact {L : Nat} (h2 : L < 2 ^ 23 * 10 ^ 9) :
    toFixed9Num (flDivPow9 L 0).1 (flDivPow9 L 0).2 = L := by
  rcases Nat.eq_zero_or_pos L with h0 | h1
  · subst h0
    decide
  · have hLAM : LAMPORTS_PER_SOL = 10 ^ 9 := by norm_num [LAMPORTS_PER_SOL]
    have hL0 : L * 2 ^ 0 = L := by norm_num
    set g := binLog9 (L * 2 ^ 0) with hgdef
    have hg9 : g = natLog2 (L * 2 ^ 64 / 10 ^ 9) := by
      rw [hgdef, binLog9, hL0, hLAM]
    have hA1 : 1 ≤ L * 2 ^ 64 / 10 ^ 9 := by
      rw [Nat.le_div_iff_mul_le (by norm_num : (0:Nat) < 10 ^ 9)]
      calc 1 * 10 ^ 9 ≤ 1 * 2 ^ 64 := by norm_num
        _ ≤ L * 2 ^ 64 := Nat.mul_le_mul_right _ h1
    obtain ⟨hgl, hgu⟩ := natLog2_spec hA1
    rw [← hg9] at hgl hgu
    have hlow : 2 ^ g * 10 ^ 9 ≤ L * 2 ^ 64 :=
      (Nat.le_div_iff_mul_le (by norm_num : (0:Nat) < 10 ^ 9)).mp hgl
    have hup : L * 2 ^ 64 < 2 ^ (g + 1) * 10 ^ 9 :=
      (Nat.div_lt_iff_lt_mul (by norm_num : (0:Nat) < 10 ^ 9)).mp hgu
    have hg86 : g ≤ 86 := by
      by_contra hc
      push_neg at hc
      have h87 : (2:Nat) ^ 87 ≤ 2 ^ g := Nat.pow_le_pow_right (by norm_num) hc
      have hbig : L * 2 ^ 64 < 2 ^ 87 * 10 ^ 9 := by
        calc L * 2 ^ 64 < 2 ^ 23 * 10 ^ 9 * 2 ^ 64 :=
              mul_lt_mul_of_pos_right h2 (by norm_num)
          _ = 2 ^ 87 * 10 ^ 9 := by ring
      nlinarith [hlow, h87, hbig]
    have hbranch : ¬(116 ≤ g) := by omega
    have hflv : flDivPow9 L 0 =
        (rhe (L * 2 ^ (116 - g)) LAMPORTS_PER_SOL, g) := by
      rw [flDivPow9, if_neg (by omega : ¬(L = 0)), ← hgdef, if_neg hbranch, hL0]
    rw [hflv]
    show toFixed9Num (rhe (L * 2 ^ (116 - g)) LAMPORTS_PER_SOL) g = L
    rw [toFixed9Num, if_neg hbranch, hLAM]
    set P := 2 ^ (116 - g) with hPdef
    have hP9 : 10 ^ 9 < P := by
      have h30 : (2:Nat) ^ 30 ≤ P := by
        rw [hPdef]
        exact Nat.pow_le_pow_right (by norm_num) (by omega)
      have : (10:Nat) ^ 9 < 2 ^ 30 := by norm_num
      omega
    obtain ⟨hb1, hb2⟩ := rhe_bounds (L * P) (10 ^ 9) (by norm_num)
    set R := rhe (L * P) (10 ^ 9) with hRdef
    have hPpos : 0 < P := by positivity
    apply Nat.div_eq_of_lt_le
    · nlinarith [hb2, hP9]
    · nlinarith [hb1, hP9]

/-!
Part 2: the two polling hooks, embedded as a discrete-time simulation.

A hook owns a balance (the useState cell of source lines 65 and 91),
a timer flag (whether the setInterval of lines 83 and 115 is live), and
three observation logs: the times of issued network calls, the times of
rejections that escaped the hook, and the number of errors logged with
console.error.  A run is driven by a configuration holding the address,
the poll flag, the manual-refresh times (invocations of the returned
getBalance callback) and, for each time, the outcome the network would
return.  One time-unit is one unit of the setInterval clock, so automatic
ticks fire at multiples of 500 after mount.
-/

/-- Observable state of one poller. -/
structure SimState where
  balance : Option Nat
  timerActive : Bool
  calls : List Nat
  escapes : List Nat
  logs : Nat
  deriving DecidableEq

/-- State before the hook's first effect: balance starts undefined. -/
def initState : SimState := ⟨none, false, [], [], 0⟩

/-- Inputs of one simulated run of a hook. -/
structure SimConfig where
  address : Option String
  poll : Bool
  manual : Nat → Bool
  outcome : Nat → Except Unit Nat

/-- Source lines 72-76: the EVM getBalance callback.  A null address
returns early; otherwise one network call is issued; on success the
balance is stored; a rejection is not caught, so it escapes to the
caller and the balance is untouched. -/
def evmGetBalance (address : Option String) (outcome : Except Unit Nat)
    (t : Nat) (s : SimState) : SimState :=
  match address with
  | none => s
  | some _ =>
    let s := { s with calls := s.calls ++ [t] }
    match outcome with
    | .ok v => { s with balance := some v }
    | .error _ => { s with escapes := s.escapes ++ [t] }

/-- Source lines 99-108: the Solana getBalance callback.  A null address
returns early; otherwise one network call is issued; on success the
balance is stored; on failure the error is logged with console.error and
the balance is forced to zero, so nothing escapes. -/
def solGetBalance (address : Option String) (outcome : Except Unit Nat)
    (t : Nat) (s : SimState) : SimState :=
  match address with
  | none => s
  | some _ =>
    let s := { s with calls := s.calls ++ [t] }
    match outcome with
    | .ok v => { s with balance := some v }
    | .error _ => { s with logs := s.logs + 1, balance := some 0 }

/-- A getBalance implementation, abstracted over the two hooks. -/
abbrev GetBalanceFn := Option String → Except Unit Nat → Nat → SimState → SimState

/-- Source lines 78-85 and 110-117, the mount effect: when poll is false
the effect returns without doing anything; otherwise getBalance runs
immediately and the interval timer is installed. -/
def mountStep (gb : GetBalanceFn) (cfg : SimConfig) : SimState :=
  if cfg.poll then
    { gb cfg.address (cfg.outcome 0) 0 initState with timerActive := true }
  else initState

/-- An interval tick at time t: getBalance runs when the timer is live and
t is a positive multiple of the 500-unit interval. -/
def tickStep (gb : GetBalanceFn) (cfg : SimConfig) (t : Nat) (s : SimState) : SimState :=
  if s.timerActive && (t % 500 == 0) then gb cfg.address (cfg.outcome t) t s else s

/-- A manual refresh at time t: an invocation of the getBalance callback
returned by the hook, as wired to the onSuccess of the funding and
transaction widgets. -/
def manualStep (gb : GetBalanceFn) (cfg : SimConfig) (t : Nat) (s : SimState) : SimState :=
  if cfg.manual t then gb cfg.address (cfg.outcome t) t s else s

/-- State of a mounted poller after all events up to and including time T:
the mount effect at time 0, then at each later time an interval tick
followed by any manual refresh. -/
def runSim (gb : GetBalanceFn) (cfg : SimConfig) : Nat → SimState
  | 0 => manualStep gb cfg 0 (mountStep gb cfg)
  | T + 1 => manualStep gb cfg (T + 1) (tickStep gb cfg (T + 1) (runSim gb cfg T))

/-- The call times the source promises: an immediate fetch at time 0 and
one per 500-unit tick when polling, plus every manual-refresh time. -/
def expectedCalls (p : Bool) (m : Nat → Bool) : Nat → List Nat
  | 0 => (if p then [0] else []) ++ (if m 0 then [0] else [])
  | T + 1 =>
    expectedCalls p m T ++
      (if p && ((T + 1) % 500 == 0) then [T + 1] else []) ++
      (if m (T + 1) then [T + 1] else [])

/-- Source lines 84 and 116: the effect cleanup returned to the framework,
run on unmount or when the effect inputs change (in particular when
polling is disabled); it clears the interval. -/
def effectCleanup (s : SimState) : SimState := { s with timerActive := false }

/-- Modelled from the spec: the framework applies the state update of a
late-resolving fetch only while the owning component is mounted; after
teardown the update is a no-op (spec section 5).  The guard itself is not
part of the repository source. -/
def setBalanceIfMounted (mounted : Bool) (v : Nat) (s : SimState) : SimState :=
  if mounted then { s with balance := some v } else s

/-- Source lines 67-70: the memoized EVM formatted balance, undefined
until the balance is defined, otherwise formatEther of it. -/
def evmFormattedBalance : Option Nat → Option String
  | none => none
  | some b => some (formatEther b)

/-- Source lines 93-97: the memoized Solana formatted balance, undefined
until the balance is defined, otherwise formatSol of it. -/
def solFormattedBalance : Option Nat → Option String
  | none => none
  | some b => some (formatSol b)

/-- Source line 142: the Base poller is created with poll set to true. -/
def basePollFlag : Bool := true

/-- Source lines 143-144: the Base Sepolia poller is created with poll set
to true. -/
def baseSepoliaPollFlag : Bool := true

/-- Source lines 146-147: the Solana mainnet poller is created with only
two arguments, so its poll flag keeps the default value of source
line 90. -/
def solanaMainnetPollFlag : Bool := false

/-- Source lines 148-149: the Solana devnet poller is created with poll
set to true. -/
def solanaDevnetPollFlag : Bool := true

/-- Source lines 205-213: the Solana mainnet FundWallet widget receives
the mainnet poller's manual refresh trigger as its onSuccess callback. -/
def fundWalletSolanaOnSuccess : GetBalanceFn := solGetBalance

/-! Helper lemmas about the simulated hooks. -/

theorem evmGetBalance_none (o : Except Unit Nat) (t : Nat) (s : SimState) :
    evmGetBalance none o t s = s := rfl

theorem solGetBalance_none (o : Except Unit Nat) (t : Nat) (s : SimState) :
    solGetBalance none o t s = s := rfl

theorem evmGetBalance_timer (ad : Option String) (o : Except Unit Nat) (t : Nat)
    (s : SimState) : (evmGetBalance ad o t s).timerActive = s.timerActive := by
  cases ad <;> cases o <;> rfl

theorem solGetBalance_timer (ad : Option String) (o : Except Unit Nat) (t : Nat)
    (s : SimState) : (solGetBalance ad o t s).timerActive = s.timerActive := by
  cases ad <;> cases o <;> rfl

theorem evmGetBalance_calls (a : String) (o : Except Unit Nat) (t : Nat)
    (s : SimState) : (evmGetBalance (some a) o t s).calls = s.calls ++ [t] := by
  cases o <;> rfl

theorem solGetBalance_calls (a : String) (o : Except Unit Nat) (t : Nat)
    (s : SimState) : (solGetBalance (some a) o t s).calls = s.calls ++ [t] := by
  cases o <;> rfl

/-- With a null address both hooks never touch the state, so a run only
installs the timer when polling is on and changes nothing else. -/
theorem runSim_none_address (gb : GetBalanceFn)
    (hN : ∀ o t s, gb none o t s = s)
    (p : Bool) (m : Nat → Bool) (o : Nat → Except Unit Nat) :
    ∀ T, runSim gb ⟨none, p, m, o⟩ T = { initState with timerActive := p } := by
  have hman : ∀ t s, manualStep gb ⟨none, p, m, o⟩ t s = s := by
    intro t s
    rw [manualStep]
    split
    · exact hN _ _ _
    · rfl
  have htick : ∀ t s, tickStep gb ⟨none, p, m, o⟩ t s = s := by
    intro t s
    rw [tickStep]
    split
    · exact hN _ _ _
    · rfl
  intro T
  induction T with
  | zero =>
    rw [runSim, hman, mountStep]
    cases p with
    | false => rfl
    | true =>
      show ({ gb none (o 0) 0 initState with timerActive := true } : SimState) = _
      rw [hN]
  | succ T ih =>
    rw [runSim, htick, hman, ih]

/-- With an address present, a run's timer flag equals the poll flag and
its network calls are exactly the expected ones: an immediate call and one
per tick when polling, plus one per manual refresh. -/
theorem runSim_some_spec (gb : GetBalanceFn)
    (hT : ∀ ad o t s, (gb ad o t s).timerActive = s.timerActive)
    (hC : ∀ a o t s, (gb (some a) o t s).calls = s.calls ++ [t])
    (a : String) (p : Bool) (m : Nat → Bool) (o : Nat → Except Unit Nat) :
    ∀ T, (runSim gb ⟨some a, p, m, o⟩ T).timerActive = p ∧
         (runSim gb ⟨some a, p, m, o⟩ T).calls = expectedCalls p m T := by
  intro T
  induction T with
  | zero =>
    have hmt : (mountStep gb ⟨some a, p, m, o⟩).timerActive = p := by
      rw [mountStep]
      cases p with
      | false => rfl
      | true => rfl
    have hmc : (mountStep gb ⟨some a, p, m, o⟩).calls = (if p then [0] else []) := by
      rw [mountStep]
      cases p with
      | false => rfl
      | true =>
        show (gb (some a) (o 0) 0 initState).calls = [0]
        rw [hC]
        rfl
    rw [runSim, manualStep, expectedCalls]
    by_cases hm : m 0 = true
    · rw [if_pos hm, if_pos hm]
      constructor
      · rw [hT, hmt]
      · rw [hC, hmc]
    · have hm' : ¬(m 0 = true) := hm
      rw [if_neg hm', if_neg hm', List.append_nil]
      exact ⟨hmt, hmc⟩
  | succ T ih =>
    obtain ⟨iht, ihc⟩ := ih
    have htick : (tickStep gb ⟨some a, p, m, o⟩ (T + 1) (runSim gb ⟨some a, p, m, o⟩ T)).timerActive = p ∧
        (tickStep gb ⟨some a, p, m, o⟩ (T + 1) (runSim gb ⟨some a, p, m, o⟩ T)).calls =
          expectedCalls p m T ++ (if p && ((T + 1) % 500 == 0) then [T + 1] else []) := by
      rw [tickStep, iht]
      by_cases hcond : (p && ((T + 1) % 500 == 0)) = true
      · rw [if_pos hcond, if_pos hcond, hT, hC, iht, ihc]
        exact ⟨rfl, rfl⟩
      · rw [if_neg hcond, if_neg hcond, List.append_nil]
        exact ⟨iht, ihc⟩
    obtain ⟨ht1, hc1⟩ := htick
    rw [runSim, manualStep, expectedCalls]
    by_cases hm : m (T + 1) = true
    · rw [if_pos hm, if_pos hm]
      constructor
      · rw [hT, ht1]
      · rw [hC, hc1, List.append_assoc]
    · have hm' : ¬(m (T + 1) = true) := hm
      rw [if_neg hm', if_neg hm', List.append_nil]
      exact ⟨ht1, hc1⟩

/-- Without manual refreshes the expected calls are exactly the multiples
of 500 up to the horizon (all of them when polling, none otherwise). -/
theorem expectedCalls_no_manual (p : Bool) (T : Nat) :
    expectedCalls p (fun _ => false) T =
      (List.range (T + 1)).filter (fun t => p && (t % 500 == 0)) := by
  induction T with
  | zero => cases p <;> rfl
  | succ T ih =>
    rw [expectedCalls, ih]
    conv_rhs => rw [List.range_succ]
    rw [List.filter_append]
    simp [List.filter_singleton]

/-- Every due tick time and every manual-refresh time occurs among the
expected calls. -/
theorem mem_expectedCalls (p : Bool) (m : Nat → Bool) (t : Nat) :
    ∀ T, t ≤ T → ((p && (t % 500 == 0)) || m t) = true → t ∈ expectedCalls p m T := by
  intro T
  induction T with
  | zero =>
    intro ht h
    interval_cases t
    rw [expectedCalls, List.mem_append]
    rcases Bool.or_eq_true_iff.mp h with h | h
    · left
      rw [if_pos (Bool.and_elim_left h)]
      exact List.mem_singleton_self 0
    · right
      rw [if_pos h]
      exact List.mem_singleton_self 0
  | succ T ih =>
    intro ht h
    rw [expectedCalls, List.mem_append, List.mem_append]
    rcases Nat.lt_or_ge t (T + 1) with hlt | hge
    · exact Or.inl (Or.inl (ih (by omega) h))
    · have heq : t = T + 1 := by omega
      subst heq
      rcases Bool.or_eq_true_iff.mp h with h | h
      · exact Or.inl (Or.inr (by rw [if_pos h]; exact List.mem_singleton_self _))
      · exact Or.inr (by rw [if_pos h]; exact List.mem_singleton_self _)

/-- A poller created with polling off and never refreshed stays in its
initial state forever: no timer, no network call, balance undefined. -/
theorem runSim_inactive (gb : GetBalanceFn) (ad : Option String)
    (o : Nat → Except Unit Nat) : ∀ T, runSim gb ⟨ad, false, fun _ => false, o⟩ T = initState := by
  intro T
  induction T with
  | zero => rfl
  | succ T ih => rw [runSim, ih]; rfl

/-! Claim theorems. -/

set_option maxRecDepth 8000 in
/-- C1 counterexample: the claim's for-all-L statement fails on the
binary64 arithmetic of the source.  At L = 2^53 (9007199254740992
lamports) the double division by 1e9 rounds up and formatSol returns the
string denoting one more smallest-unit, and at L = 9000000000000001
(below 2^53, so the argument itself is exact) the quotient's ulp exceeds
one billionth and the output again denotes a different value; both
outputs differ from the decimal string of L / 10^9. -/
theorem formatSol_float_counterexample :
    (formatSol 9007199254740992 ≠ formatSolSpec 9007199254740992 ∧
      formatSol 9007199254740992 = "9007199.254740993" ∧
      formatSolSpec 9007199254740992 = "9007199.254740992") ∧
    (formatSol 9000000000000001 ≠ formatSolSpec 9000000000000001 ∧
      formatSol 9000000000000001 = "9000000.000000002" ∧
      formatSolSpec 9000000000000001 = "9000000.000000001") :=
  ⟨⟨by decide, by decide, by decide⟩, ⟨by decide, by decide, by decide⟩⟩

/-- C1 (amended): for every non-negative integer lamport balance L below
2^23 * 10^9 (8388608 SOL, the range in which the half-ulp of the double
quotient stays below half a billionth, so the binary64 pipeline is exact;
the very next integer, 8388608000000001, already fails), formatSol returns
the decimal string denoting L / 10^9 with trailing zeros and a trailing
bare decimal point removed, and the three stated examples hold. -/
theorem formatSol_exact_range :
    (∀ L : Nat, L < 2 ^ 23 * 10 ^ 9 →
      formatSol L = formatSolSpec L ∧
        decDenote (formatSolChars L) = (L : ℚ) / 10 ^ 9) ∧
    formatSol 1500000000 = "1.5" ∧ formatSol 1000000000 = "1" ∧ formatSol 0 = "0" := by
  refine ⟨?_, by decide, by decide, by decide⟩
  intro L hL
  have hsmall : L < 2 ^ 53 := lt_trans hL (by norm_num)
  have hfl : flNatPair L = (L, 0) := flNatPair_small hsmall
  have hchars : formatSolChars L = toFixedStrip L := by
    rw [formatSolChars, hfl]
    show toFixedStrip (toFixed9Num (flDivPow9 L 0).1 (flDivPow9 L 0).2) = _
    rw [toFixed9Num_flDiv_exact hL]
  constructor
  · rw [formatSol, formatSolSpec, hchars, toFixedStrip_eq_formatUnits]
  · rw [hchars, toFixedStrip_eq_formatUnits, decDenote_formatUnits]

/-- Witness for C1 at a concrete in-range input. -/
theorem formatSol_exact_range_witness :
    1500000000 < 2 ^ 23 * 10 ^ 9 ∧
    (formatSol 1500000000 = formatSolSpec 1500000000 ∧
      decDenote (formatSolChars 1500000000) = (1500000000 : ℚ) / 10 ^ 9) :=
  ⟨by decide, formatSol_exact_range.1 1500000000 (by decide)⟩

/-- C5: for every non-negative integer balance, the EVM formatter produces
a decimal string with at most 18 fractional digits denoting exactly the
balance divided by 10 to the 18th. -/
theorem formatEther_correct (B : Nat) :
    fracLen (formatEther B).data ≤ 18 ∧
    decDenote (formatEther B).data = (B : ℚ) / 10 ^ 18 :=
  ⟨fracLen_formatUnits B 18, decDenote_formatUnits B 18⟩

/-- C8: the formatted balance is a pure, deterministic function of the
balance alone: two states with equal balances format to identical strings,
for both the EVM and the Solana formatter. -/
theorem formattedBalance_pure (s₁ s₂ : SimState) (h : s₁.balance = s₂.balance) :
    evmFormattedBalance s₁.balance = evmFormattedBalance s₂.balance ∧
    solFormattedBalance s₁.balance = solFormattedBalance s₂.balance := by
  rw [h]
  exact ⟨rfl, rfl⟩

/-- Witness for C8 at two concrete states sharing a balance but differing
everywhere else. -/
theorem formattedBalance_pure_witness :
    ((⟨some 1500000000, true, [0], [], 0⟩ : SimState).balance =
        (⟨some 1500000000, false, [0, 500], [7], 3⟩ : SimState).balance) ∧
    (evmFormattedBalance (⟨some 1500000000, true, [0], [], 0⟩ : SimState).balance =
        evmFormattedBalance (⟨some 1500000000, false, [0, 500], [7], 3⟩ : SimState).balance ∧
      solFormattedBalance (⟨some 1500000000, true, [0], [], 0⟩ : SimState).balance =
        solFormattedBalance (⟨some 1500000000, false, [0, 500], [7], 3⟩ : SimState).balance) :=
  ⟨by decide,
    formattedBalance_pure ⟨some 1500000000, true, [0], [], 0⟩
      ⟨some 1500000000, false, [0, 500], [7], 3⟩ (by decide)⟩

/-- C2 counterexample: with a null address but polling enabled, the mount
effect still installs the interval timer (source lines 78-85 only test the
poll flag), contradicting the claim that no timer is ever started. -/
theorem nullAddress_timer_counterexample :
    (runSim evmGetBalance ⟨none, true, fun _ => false, fun _ => .ok 0⟩ 0).timerActive = true :=
  rfl

/-- C2 amended: with a null address no network call is ever made and the
balance (with the whole rest of the state) stays at its initial undefined
value for ever; however the interval timer is still installed exactly when
polling is enabled, its ticks fetching nothing. -/
theorem nullAddress_no_calls (p : Bool) (m : Nat → Bool)
    (o : Nat → Except Unit Nat) (T : Nat) :
    runSim evmGetBalance ⟨none, p, m, o⟩ T = { initState with timerActive := p } ∧
    runSim solGetBalance ⟨none, p, m, o⟩ T = { initState with timerActive := p } :=
  ⟨runSim_none_address evmGetBalance evmGetBalance_none p m o T,
    runSim_none_address solGetBalance solGetBalance_none p m o T⟩

/-- C3: a failing Solana fetch with an address present issues its network
call, stores exactly the zero balance (not undefined), logs the error, and
lets nothing escape: the escapes log is untouched. -/
theorem solFetchFailure (a : String) (t : Nat) (s : SimState) :
    solGetBalance (some a) (.error ()) t s =
      { s with balance := some 0, calls := s.calls ++ [t], logs := s.logs + 1 } :=
  rfl

/-- C4: a failing EVM fetch with an address present issues its network
call, leaves the balance unchanged, logs nothing, and its rejection
escapes the hook, observable by the caller. -/
theorem evmFetchFailure (a : String) (t : Nat) (s : SimState) :
    evmGetBalance (some a) (.error ()) t s =
      { s with calls := s.calls ++ [t], escapes := s.escapes ++ [t] } :=
  rfl

/-- C6: with polling enabled, an address present and no manual refreshes,
both hooks issue their network calls exactly at the multiples of 500 up to
any horizon while mounted; in particular the first fetch happens at time
0, at mount, before any timer delay elapses. -/
theorem polling_schedule (a : String) (o : Nat → Except Unit Nat) (T : Nat) :
    ((runSim evmGetBalance ⟨some a, true, fun _ => false, o⟩ T).calls =
        (List.range (T + 1)).filter (fun t => t % 500 == 0)) ∧
    ((runSim solGetBalance ⟨some a, true, fun _ => false, o⟩ T).calls =
        (List.range (T + 1)).filter (fun t => t % 500 == 0)) ∧
    (runSim evmGetBalance ⟨some a, true, fun _ => false, o⟩ 0).calls = [0] ∧
    (runSim solGetBalance ⟨some a, true, fun _ => false, o⟩ 0).calls = [0] := by
  have he := runSim_some_spec evmGetBalance evmGetBalance_timer evmGetBalance_calls
    a true (fun _ => false) o
  have hs := runSim_some_spec solGetBalance solGetBalance_timer solGetBalance_calls
    a true (fun _ => false) o
  refine ⟨?_, ?_, ?_, ?_⟩
  · rw [(he T).2, expectedCalls_no_manual]
    simp only [Bool.true_and]
  · rw [(hs T).2, expectedCalls_no_manual]
    simp only [Bool.true_and]
  · rw [(he 0).2]
    rfl
  · rw [(hs 0).2]
    rfl

/-- C7: the manual refresh trigger is independent of the timer.  For both
hooks, for every poll flag, manual pattern and horizon, the call times are
exactly the expected ones, whose timer component does not depend on the
manual pattern at all; consequently every manual-refresh time fetches
immediately whatever the timer phase, and every due tick still fires, so
the schedule is neither reset nor skipped. -/
theorem manualRefresh_independent (a : String) (p : Bool) (m : Nat → Bool)
    (o : Nat → Except Unit Nat) (T : Nat) :
    ((runSim evmGetBalance ⟨some a, p, m, o⟩ T).calls = expectedCalls p m T) ∧
    ((runSim solGetBalance ⟨some a, p, m, o⟩ T).calls = expectedCalls p m T) ∧
    (∀ t, t ≤ T → m t = true →
      t ∈ (runSim evmGetBalance ⟨some a, p, m, o⟩ T).calls) ∧
    (∀ t, t ≤ T → p = true → t % 500 = 0 →
      t ∈ (runSim evmGetBalance ⟨some a, p, m, o⟩ T).calls) ∧
    (∀ t, t ≤ T → m t = true →
      t ∈ (runSim solGetBalance ⟨some a, p, m, o⟩ T).calls) ∧
    (∀ t, t ≤ T → p = true → t % 500 = 0 →
      t ∈ (runSim solGetBalance ⟨some a, p, m, o⟩ T).calls) := by
  have he := runSim_some_spec evmGetBalance evmGetBalance_timer evmGetBalance_calls a p m o
  have hs := runSim_some_spec solGetBalance solGetBalance_timer solGetBalance_calls a p m o
  refine ⟨(he T).2, (hs T).2, ?_, ?_, ?_, ?_⟩
  · intro t ht hm
    rw [(he T).2]
    exact mem_expectedCalls p m t T ht (by simp [hm])
  · intro t ht hp h500
    rw [(he T).2]
    exact mem_expectedCalls p m t T ht (by simp [hp, h500])
  · intro t ht hm
    rw [(hs T).2]
    exact mem_expectedCalls p m t T ht (by simp [hm])
  · intro t ht hp h500
    rw [(hs T).2]
    exact mem_expectedCalls p m t T ht (by simp [hp, h500])

/-- Witness for C7: with polling on and a manual refresh at time 7, both a
manual fetch at 7 and the scheduled tick at 500 occur. -/
theorem manualRefresh_independent_witness :
    7 ∈ (runSim evmGetBalance ⟨"addr", true, fun t => t == 7, fun _ => .ok 1⟩ 10).calls ∧
    500 ∈ (runSim solGetBalance ⟨"addr", true, fun t => t == 7, fun _ => .ok 1⟩ 501).calls := by
  constructor
  · exact (manualRefresh_independent "addr" true (fun t => t == 7)
      (fun _ => .ok 1) 10).2.2.1 7 (by decide) (by decide)
  · exact (manualRefresh_independent "addr" true (fun t => t == 7)
      (fun _ => .ok 1) 501).2.2.2.2.2 500 (by decide) rfl (by decide)

/-- C9: the effect cleanup run by the framework at unmount, or when the
effect inputs change because polling is disabled, always clears the
interval timer, so no timer outlives its poller; and a fetch that resolves
after teardown performs no state mutation at all. -/
theorem teardown_safe :
    (∀ s : SimState, (effectCleanup s).timerActive = false) ∧
    (∀ (v : Nat) (s : SimState), setBalanceIfMounted false v s = s) :=
  ⟨fun _ => rfl, fun _ _ => rfl⟩

/-- C10: the Screen Composer instantiates the Solana mainnet poller with
its poll flag left at the default false, so that poller never starts a
timer and never fetches on its own: without manual refreshes its state,
and its undefined balance in particular, stays initial for ever; the
balance only appears once the funding widget's onSuccess callback, which
is exactly the poller's manual getBalance trigger, is invoked. -/
theorem solanaMainnet_manualOnly :
    solanaMainnetPollFlag = false ∧
    (∀ (ad : Option String) (o : Nat → Except Unit Nat) (T : Nat),
      runSim solGetBalance ⟨ad, solanaMainnetPollFlag, fun _ => false, o⟩ T = initState) ∧
    fundWalletSolanaOnSuccess = solGetBalance ∧
    (∀ (a : String) (v t : Nat) (s : SimState),
      (fundWalletSolanaOnSuccess (some a) (.ok v) t s).balance = some v) := by
  refine ⟨rfl, ?_, rfl, fun a v t s => rfl⟩
  intro ad o T
  exact runSim_inactive solGetBalance ad o T

end CdpWalls
